import Mathlib

/-!
Shallow embedding of the analysis core of the weather-dashboard repository
(`src/analysis.py`) and proofs of the specification claims about it.

Modelling conventions:
* a pandas value cell is `Option ℚ` — `none` is NaN (missing), `some q` a
  number; exact rationals stand in for IEEE doubles;
* a `pandas.DataFrame` is a date index plus named columns;
* a raised `KeyError(var)` is `Except.error (.missingVariable var)`;
* `pandas.Timestamp` comparison and day arithmetic are mediated by a
  days-since-epoch linearisation of calendar dates.
-/

namespace WD

/-- Calendar date (year, month, day), mirroring `pandas.Timestamp` at the day
granularity used throughout `src/analysis.py`. -/
structure Date where
  y : Nat
  m : Nat
  d : Nat
deriving DecidableEq, Repr, Inhabited

/-- Gregorian leap-year rule, as implemented by `pandas.Timestamp`. -/
def isLeapYear (y : Nat) : Bool :=
  (y % 4 == 0 && y % 100 != 0) || (y % 400 == 0)

/-- Number of days in month `m` of year `y` (Gregorian); this is the day
`pd.offsets.MonthEnd(0)` rolls the first of the month forward to in
`detect_droughts`. -/
def daysInMonth (y m : Nat) : Nat :=
  if m == 2 then (if isLeapYear y then 29 else 28)
  else if m == 4 || m == 6 || m == 9 || m == 11 then 30
  else 31

/-- Days-since-epoch linearisation of a calendar date (the standard civil
day-count).  Comparing or subtracting `pandas.Timestamp`s at day granularity
coincides with comparing or subtracting these counts. -/
def Date.toDays (t : Date) : Nat :=
  let y' := if t.m ≤ 2 then t.y - 1 else t.y
  let m' := if t.m ≤ 2 then t.m + 9 else t.m - 3
  let doy := (153 * m' + 2) / 5 + t.d - 1
  365 * y' + y' / 4 + y' / 400 + doy - y' / 100

/-- A value cell of a column: `none` models NaN (a missing observation). -/
abbrev Value := Option ℚ

/-- The date-indexed table the analysis functions receive: an index of dates
and named numeric columns (a `pandas.DataFrame`). -/
structure DataFrame where
  index : List Date
  cols : List (String × List Value)

/-- Errors surfaced by the analysis entry points.  `missingVariable v` models
the `KeyError(v)` raised — explicitly by the `var not in df.columns` guards,
by pandas column indexing itself in `rolling_mean`, or by
`set_index("year")` on the empty season table in `detect_droughts`. -/
inductive AnalysisError where
  | missingVariable (v : String)
deriving DecidableEq, Repr

/-- Column access `df[var]`: yields the column, or a `KeyError` when `var` is
not a column of the frame. -/
def getCol (df : DataFrame) (var : String) : Except AnalysisError (List Value) :=
  match df.cols.lookup var with
  | none => .error (.missingVariable var)
  | some c => .ok c

/-- Embedding of `series.dropna()`: keep only the non-missing (date, value)
pairs, in order. -/
def dropna (s : List (Date × Value)) : List (Date × ℚ) :=
  s.filterMap fun e => e.2.map fun q => (e.1, q)

/-- Embedding of `np.nanpercentile(xs, p)` on NaN-free data with numpy's
default linear interpolation: sort ascending, take fractional rank
`p/100 * (n-1)`, and interpolate between the two neighbouring order
statistics.  (numpy has no answer on an empty array; here the value is 0 and
no theorem relies on that case.) -/
def nanpercentile (xs : List ℚ) (p : ℚ) : ℚ :=
  let sorted := xs.insertionSort (· ≤ ·)
  let h := p / 100 * ((xs.length : ℚ) - 1)
  let i := (⌊h⌋).toNat
  let lo := sorted.getD i 0
  let hi := sorted.getD (i + 1) lo
  lo + (h - (i : ℚ)) * (hi - lo)

/-- Positions of `true` in a boolean mask, in increasing order: the
`np.where(mask)[0]` step of `_consecutive_ranges`. -/
def trueIndices (mask : List Bool) : List Nat :=
  (List.range mask.length).filter fun i => mask.getD i false

/-- The loop of `_consecutive_ranges`: `start` is the start of the run being
built, `prev` the last index added to it, and the remaining `np.where`
indices are consumed left to right; a gap (`i ≠ prev + 1`) closes the current
run and opens a new one. -/
def rangesGo (start prev : Nat) : List Nat → List (Nat × Nat)
  | [] => [(start, prev)]
  | i :: rest =>
    if i ≠ prev + 1 then (start, prev) :: rangesGo i i rest
    else rangesGo start i rest

/-- Embedding of `_consecutive_ranges(mask)`: the inclusive `(start, end)`
index pairs of the maximal runs of `True` in the mask, left to right. -/
def consecutiveRanges (mask : List Bool) : List (Nat × Nat) :=
  match trueIndices mask with
  | [] => []
  | i :: rest => rangesGo i i rest

/-- Rebuild a boolean mask of length `n` that is `true` exactly at positions
covered by the given inclusive ranges — the mask-derivation step of the
idempotence property (from the spec's wording, not from the source). -/
def maskOfRanges (rs : List (Nat × Nat)) (n : Nat) : List Bool :=
  (List.range n).map fun j => rs.any fun r => r.1 ≤ j && j ≤ r.2

/-- Result row of `get_monthly_records`: the global extremum pair. -/
structure MonthlyRecord where
  max_value : ℚ
  max_date : Date
  min_value : ℚ
  min_date : Date
deriving DecidableEq, Repr

/-- Embedding of `series.idxmax()` (plus the `loc` read) on a non-empty
series, as head plus tail: the first (date, value) pair attaining the maximum
value — pandas documents that ties resolve to the first row label. -/
def idxmaxFirst (x : Date × ℚ) (xs : List (Date × ℚ)) : Date × ℚ :=
  xs.foldl (fun best e => if best.2 < e.2 then e else best) x

/-- Embedding of `series.idxmin()` plus the `loc` read, first occurrence
winning. -/
def idxminFirst (x : Date × ℚ) (xs : List (Date × ℚ)) : Date × ℚ :=
  xs.foldl (fun best e => if e.2 < best.2 then e else best) x

/-- Embedding of `get_monthly_records(df, var)`: drop missing values; `none`
models the empty DataFrame returned when nothing remains; otherwise the
global max and min values with the dates they occur at. -/
def get_monthly_records (df : DataFrame) (var : String) :
    Except AnalysisError (Option MonthlyRecord) := do
  let col ← getCol df var
  match dropna (df.index.zip col) with
  | [] => return none
  | x :: xs =>
    let mx := idxmaxFirst x xs
    let mn := idxminFirst x xs
    return some ⟨mx.2, mx.1, mn.2, mn.1⟩

/-- Arithmetic mean of a list; `none` models the NaN that pandas produces
for an empty window or bucket (`min_periods` defaults to 1 on offset
windows). -/
def meanOpt (xs : List ℚ) : Option ℚ :=
  if xs.isEmpty then none else some (xs.sum / (xs.length : ℚ))

/-- Values of `s` whose timestamp lies in the trailing window
`(t − w days, t]` — pandas offset-based rolling windows default to
`closed='right'`: the left endpoint is excluded, the right included. -/
def trailingWindow (s : List (Date × ℚ)) (t : Date) (w : ℤ) : List ℚ :=
  (s.filter fun e =>
      decide ((t.toDays : ℤ) - w < (e.1.toDays : ℤ)) &&
      decide (e.1.toDays ≤ t.toDays)).map Prod.snd

/-- Embedding of `rolling_mean(df, var, window_days)`: take `df[var]` (a
`KeyError` when the column is absent), drop missing values, return the empty
series unchanged when nothing remains, else
`s.rolling(f"(window_days)D").mean()` — the time-based trailing-window mean
at every remaining timestamp.  The code performs no validation of
`window_days`. -/
def rolling_mean (df : DataFrame) (var : String) (window_days : ℤ) :
    Except AnalysisError (List (Date × Option ℚ)) := do
  let col ← getCol df var
  let s := dropna (df.index.zip col)
  if s.isEmpty then return []
  else return s.map fun e => (e.1, meanOpt (trailingWindow s e.1 window_days))

/-- Calendar years of the buckets `dropna().resample("A")` creates: every
year from the first to the last timestamp of the series — pandas
materialises the intermediate empty buckets (their mean is NaN). -/
def bucketYears (s : List (Date × ℚ)) : List Nat :=
  match s with
  | [] => []
  | x :: xs =>
    let lo := (xs.map fun e => e.1.y).foldl min x.1.y
    let hi := (xs.map fun e => e.1.y).foldl max x.1.y
    List.range' lo (hi + 1 - lo)

/-- Mean of the year-`y` resample bucket; `none` models the NaN mean of an
empty bucket, removed by the `~np.isnan` mask in `estimate_trend`. -/
def bucketMean (s : List (Date × ℚ)) (y : Nat) : Option ℚ :=
  meanOpt ((s.filter fun e => e.1.y == y).map Prod.snd)

/-- Exact ordinary-least-squares slope of y against x — the value that both
`np.polyfit(x, y, 1)` and `scipy.stats.linregress(x, y)` compute for the
slope of the fitted line. -/
def olsSlope (pts : List (ℚ × ℚ)) : ℚ :=
  let n : ℚ := (pts.length : ℚ)
  let sx := (pts.map Prod.fst).sum
  let sy := (pts.map Prod.snd).sum
  let sxy := (pts.map fun p => p.1 * p.2).sum
  let sxx := (pts.map fun p => p.1 * p.1).sum
  (n * sxy - sx * sy) / (n * sxx - sx * sx)

/-- Embedding of `estimate_trend(df, var)` with the default annual
resampling.  The optional `scipy.stats` import is modelled as an optional
p-value capability `pcap`: when present it supplies
`linregress(x, y).pvalue`, and the slope of that same fit is the OLS slope
(identical to the `np.polyfit` slope the code computes first). -/
def estimate_trend (df : DataFrame) (var : String)
    (pcap : Option (List (ℚ × ℚ) → ℚ)) :
    Except AnalysisError (Option ℚ × Option ℚ) := do
  let col ← getCol df var
  let s := dropna (df.index.zip col)
  let buckets := (bucketYears s).map fun (y : Nat) => ((y : ℚ), bucketMean s y)
  if buckets.isEmpty || buckets.length < 2 then return (none, none)
  else
    let valid := buckets.filterMap fun b => b.2.map fun v => (b.1, v)
    if valid.length < 2 then return (none, none)
    else
      match pcap with
      | none => return (some (olsSlope valid), none)
      | some f => return (some (olsSlope valid), some (f valid))

/-- The mask `df[var] > thresh` of `detect_heatwaves`: a NaN cell compares
false against the threshold. -/
def heatMask (col : List Value) (thresh : ℚ) : List Bool :=
  col.map fun v => match v with
    | none => false
    | some x => decide (thresh < x)

/-- The mask `df[var] < thresh` of `detect_cold_spells`: a NaN cell compares
false against the threshold. -/
def coldMask (col : List Value) (thresh : ℚ) : List Bool :=
  col.map fun v => match v with
    | none => false
    | some x => decide (x < thresh)

/-- Embedding of `detect_heatwaves(df, var, percentile, min_duration)`:
threshold at the given percentile of the non-missing values, mask
`value > threshold` (strict), maximal runs of the mask, keep runs of length
at least `min_duration`, and map the surviving run endpoints back to the
calendar index. -/
def detect_heatwaves (df : DataFrame) (var : String) (percentile : ℚ)
    (min_duration : Nat) : Except AnalysisError (List (Date × Date)) := do
  let col ← getCol df var
  let thresh := nanpercentile ((dropna (df.index.zip col)).map Prod.snd) percentile
  let ranges := consecutiveRanges (heatMask col thresh)
  return (ranges.filter fun r => min_duration ≤ r.2 - r.1 + 1).map
    fun r => (df.index.getD r.1 default, df.index.getD r.2 default)

/-- Embedding of `detect_cold_spells(df, var, percentile, min_duration)`:
identical pipeline with the strict mask `value < threshold`. -/
def detect_cold_spells (df : DataFrame) (var : String) (percentile : ℚ)
    (min_duration : Nat) : Except AnalysisError (List (Date × Date)) := do
  let col ← getCol df var
  let thresh := nanpercentile ((dropna (df.index.zip col)).map Prod.snd) percentile
  let ranges := consecutiveRanges (coldMask col thresh)
  return (ranges.filter fun r => min_duration ≤ r.2 - r.1 + 1).map
    fun r => (df.index.getD r.1 default, df.index.getD r.2 default)

/-- Result row of `detect_droughts`, one per calendar year of the index. -/
structure SeasonRow where
  year : Nat
  start : Date
  stop : Date
  precip : ℚ
  is_drought : Bool
  cutoff : ℚ
deriving DecidableEq, Repr

/-- First day of the drought season window of year `y`:
`pd.Timestamp(year=y, month=m1, day=1)`. -/
def seasonStart (season_months : Nat × Nat) (y : Nat) : Date :=
  ⟨y, season_months.1, 1⟩

/-- Last day of the drought season window of year `y`:
`pd.Timestamp(year=y, month=m2, day=1) + pd.offsets.MonthEnd(0)`. -/
def seasonStop (season_months : Nat × Nat) (y : Nat) : Date :=
  ⟨y, season_months.2, daysInMonth y season_months.2⟩

/-- The cumulative seasonal precipitation of year `y` in `detect_droughts`:
the sum of the zero-filled values whose timestamp lies in the closed window
from `seasonStart` to `seasonStop`. -/
def seasonTotal (pr : List (Date × ℚ)) (season_months : Nat × Nat) (y : Nat) : ℚ :=
  ((pr.filter fun e =>
      decide ((seasonStart season_months y).toDays ≤ e.1.toDays) &&
      decide (e.1.toDays ≤ (seasonStop season_months y).toDays)).map Prod.snd).sum

/-- Embedding of `detect_droughts(df, prcp_var, season_months, percentile)`:
missing precipitation is replaced by 0 (`fillna(0)`, not dropped); one
cumulative seasonal total per calendar year present in the index (ascending,
duplicates removed); percentile cutoff over all totals; a year is flagged as
drought when its total is `≤` the cutoff (inclusive comparison).  On a frame
with an empty index the per-year season list is empty and
`pd.DataFrame([]).set_index("year")` raises `KeyError("year")`; that crash
is modelled by the `missingVariable "year"` error. -/
def detect_droughts (df : DataFrame) (prcp_var : String)
    (season_months : Nat × Nat) (percentile : ℚ) :
    Except AnalysisError (List SeasonRow) := do
  let col ← getCol df prcp_var
  let pr := (df.index.zip col).map fun e => (e.1, e.2.getD 0)
  let years := ((df.index.map Date.y).dedup).insertionSort (· ≤ ·)
  if years.isEmpty then
    throw (.missingVariable "year")
  else
    let totals := years.map fun y => seasonTotal pr season_months y
    let cutoff := nanpercentile totals percentile
    return (years.zip totals).map fun yt =>
      ⟨yt.1, seasonStart season_months yt.1, seasonStop season_months yt.1,
        yt.2, decide (yt.2 ≤ cutoff), cutoff⟩

/-! ### Run-detector lemmas (`_consecutive_ranges`) -/

theorem rangesGo_ne_nil (l : List Nat) (start prev : Nat) : rangesGo start prev l ≠ [] := by
  induction l generalizing start prev with
  | nil => simp [rangesGo]
  | cons i t ih =>
    rw [rangesGo]
    split
    · simp
    · exact ih start i

theorem rangesGo_fst_ge (l : List Nat) : ∀ start prev, start ≤ prev →
    List.Chain' (· < ·) (prev :: l) →
    ∀ r ∈ rangesGo start prev l, start ≤ r.1 := by
  induction l with
  | nil =>
    intro start prev hsp _ r hr
    simp only [rangesGo, List.mem_singleton] at hr
    subst hr; exact le_refl _
  | cons i t ih =>
    intro start prev hsp hch r hr
    rw [List.chain'_cons] at hch
    obtain ⟨hpi, hch'⟩ := hch
    rw [rangesGo] at hr
    split at hr
    · rcases List.mem_cons.mp hr with h | h
      · subst h; exact le_refl _
      · have h2 := ih i i (le_refl i) hch' r h
        omega
    · exact ih start i (by omega) hch' r hr

theorem rangesGo_fst_le_snd (l : List Nat) : ∀ start prev, start ≤ prev →
    ∀ r ∈ rangesGo start prev l, r.1 ≤ r.2 := by
  induction l with
  | nil =>
    intro start prev hsp r hr
    simp only [rangesGo, List.mem_singleton] at hr
    subst hr; exact hsp
  | cons i t ih =>
    intro start prev hsp r hr
    rw [rangesGo] at hr
    split at hr
    · rcases List.mem_cons.mp hr with h | h
      · subst h; exact hsp
      · exact ih i i (le_refl i) r h
    · exact ih start i (by omega) r hr

theorem rangesGo_cover (l : List Nat) : ∀ start prev (j : Nat), start ≤ prev →
    List.Chain' (· < ·) (prev :: l) →
    ((∃ r ∈ rangesGo start prev l, r.1 ≤ j ∧ j ≤ r.2) ↔ (start ≤ j ∧ j ≤ prev) ∨ j ∈ l) := by
  induction l with
  | nil =>
    intro start prev j hsp _
    simp [rangesGo]
  | cons i t ih =>
    intro start prev j hsp hch
    rw [List.chain'_cons] at hch
    obtain ⟨hpi, hch'⟩ := hch
    rw [rangesGo]
    split
    · constructor
      · rintro ⟨r, hr, hj1, hj2⟩
        rcases List.mem_cons.mp hr with h | h
        · subst h; exact Or.inl ⟨hj1, hj2⟩
        · have h2 := (ih i i j (le_refl i) hch').mp ⟨r, h, hj1, hj2⟩
          refine Or.inr (List.mem_cons.mpr ?_)
          rcases h2 with ⟨ha, hb⟩ | h2
          · exact Or.inl (by omega)
          · exact Or.inr h2
      · intro h
        rcases h with ⟨h1, h2⟩ | h
        · exact ⟨(start, prev), List.mem_cons_self _ _, h1, h2⟩
        · rw [List.mem_cons] at h
          have := (ih i i j (le_refl i) hch').mpr (by
            rcases h with h | h
            · exact Or.inl (by omega)
            · exact Or.inr h)
          obtain ⟨r, hr, hj⟩ := this
          exact ⟨r, List.mem_cons_of_mem _ hr, hj⟩
    · have heq : i = prev + 1 := by omega
      have := ih start i j (by omega) hch'
      rw [this]
      simp only [List.mem_cons]
      constructor
      · rintro (⟨h1, h2⟩ | h)
        · rcases Nat.lt_or_ge j i with hj | hj
          · exact Or.inl ⟨h1, by omega⟩
          · exact Or.inr (Or.inl (by omega))
        · exact Or.inr (Or.inr h)
      · rintro (⟨h1, h2⟩ | h | h)
        · exact Or.inl ⟨h1, by omega⟩
        · exact Or.inl ⟨by omega, by omega⟩
        · exact Or.inr h

theorem rangesGo_gap (l : List Nat) : ∀ start prev, start ≤ prev →
    List.Chain' (· < ·) (prev :: l) →
    List.Pairwise (fun r r' : Nat × Nat => r.2 + 1 < r'.1) (rangesGo start prev l) := by
  induction l with
  | nil =>
    intro start prev _ _
    simp [rangesGo]
  | cons i t ih =>
    intro start prev hsp hch
    rw [List.chain'_cons] at hch
    obtain ⟨hpi, hch'⟩ := hch
    rw [rangesGo]
    split
    next hne =>
      refine List.pairwise_cons.mpr ⟨?_, ih i i (le_refl i) hch'⟩
      intro r hr
      have h1 := rangesGo_fst_ge t i i (le_refl i) hch' r hr
      simp only
      omega
    next hne => exact ih start i (by omega) hch'

theorem trueIndices_pairwise (mask : List Bool) : (trueIndices mask).Pairwise (· < ·) :=
  (List.pairwise_lt_range _).filter _

theorem mem_trueIndices (mask : List Bool) (j : Nat) :
    j ∈ trueIndices mask ↔ j < mask.length ∧ mask.getD j false = true := by
  simp [trueIndices, List.mem_filter, List.mem_range]

theorem consecutiveRanges_cover (mask : List Bool) (j : Nat) :
    (∃ r ∈ consecutiveRanges mask, r.1 ≤ j ∧ j ≤ r.2) ↔
      (j < mask.length ∧ mask.getD j false = true) := by
  rw [← mem_trueIndices]
  unfold consecutiveRanges
  cases h : trueIndices mask with
  | nil => simp [h]
  | cons i t =>
    have hpw : (i :: t).Pairwise (· < ·) := h ▸ trueIndices_pairwise mask
    have hch : List.Chain' (· < ·) (i :: t) := hpw.chain'
    rw [rangesGo_cover t i i j (le_refl i) hch]
    simp only [List.mem_cons]
    constructor
    · rintro (⟨h1, h2⟩ | h2)
      · exact Or.inl (by omega)
      · exact Or.inr h2
    · rintro (h2 | h2)
      · exact Or.inl (by omega)
      · exact Or.inr h2

theorem consecutiveRanges_gap (mask : List Bool) :
    List.Pairwise (fun r r' : Nat × Nat => r.2 + 1 < r'.1) (consecutiveRanges mask) := by
  unfold consecutiveRanges
  cases h : trueIndices mask with
  | nil => simp
  | cons i t =>
    have hpw : (i :: t).Pairwise (· < ·) := h ▸ trueIndices_pairwise mask
    exact rangesGo_gap t i i (le_refl i) hpw.chain'

theorem consecutiveRanges_fst_le_snd (mask : List Bool) :
    ∀ r ∈ consecutiveRanges mask, r.1 ≤ r.2 := by
  unfold consecutiveRanges
  cases h : trueIndices mask with
  | nil => simp
  | cons i t => exact rangesGo_fst_le_snd t i i (le_refl i)

theorem getD_maskOfRanges (rs : List (Nat × Nat)) (n j : Nat) :
    (maskOfRanges rs n).getD j false = true ↔
      j < n ∧ ∃ r ∈ rs, r.1 ≤ j ∧ j ≤ r.2 := by
  unfold maskOfRanges
  rcases Nat.lt_or_ge j n with hj | hj
  · rw [List.getD_eq_getElem _ _ (by simpa using hj)]
    simp [hj]
  · rw [List.getD_eq_default _ _ (by simpa using hj)]
    simp
    omega

theorem length_maskOfRanges (rs : List (Nat × Nat)) (n : Nat) :
    (maskOfRanges rs n).length = n := by
  simp [maskOfRanges]

theorem maskOfRanges_reconstruct (mask : List Bool) :
    maskOfRanges (consecutiveRanges mask) mask.length = mask := by
  apply List.ext_getElem (length_maskOfRanges _ _)
  intro j h1 h2
  have hgetD : (maskOfRanges (consecutiveRanges mask) mask.length).getD j false =
      (maskOfRanges (consecutiveRanges mask) mask.length)[j] :=
    List.getD_eq_getElem _ _ h1
  have hgetD2 : mask.getD j false = mask[j] := List.getD_eq_getElem _ _ h2
  by_cases hb : mask[j] = true
  · rw [← hgetD2] at hb
    have := (consecutiveRanges_cover mask j).mpr ⟨h2, hb⟩
    have h3 := (getD_maskOfRanges (consecutiveRanges mask) mask.length j).mpr ⟨h2, this⟩
    rw [hgetD] at h3
    rw [h3, ← hgetD2, hb]
  · have hb' : mask[j] = false := by simpa using hb
    rw [hb']
    by_contra hc
    have h4 : (maskOfRanges (consecutiveRanges mask) mask.length)[j] = true := by
      simpa using hc
    rw [← hgetD] at h4
    have h5 := (getD_maskOfRanges (consecutiveRanges mask) mask.length j).mp h4
    have h6 := (consecutiveRanges_cover mask j).mp h5.2
    rw [hgetD2, hb'] at h6
    exact absurd h6.2 (by simp)

theorem rangesGo_range' (k : Nat) : ∀ start prev : Nat,
    rangesGo start prev (List.range' (prev + 1) k) = [(start, prev + k)] := by
  induction k with
  | zero => intro start prev; simp [rangesGo]
  | succ m ih =>
    intro start prev
    rw [List.range'_succ, rangesGo]
    split
    next hne => exact absurd rfl hne
    next hne =>
      have e : prev + (m + 1) = prev + 1 + m := by omega
      rw [ih start (prev + 1), e]

theorem consecutiveRanges_block (mask : List Bool) (a ℓ : Nat)
    (h : trueIndices mask = List.range' a ℓ) (hℓ : 1 ≤ ℓ) :
    consecutiveRanges mask = [(a, a + ℓ - 1)] := by
  unfold consecutiveRanges
  obtain ⟨k, rfl⟩ : ∃ k, ℓ = k + 1 := ⟨ℓ - 1, by omega⟩
  have e : a + (k + 1) - 1 = a + k := by omega
  rw [h, List.range'_succ, e]
  show rangesGo a a (List.range' (a + 1) k) = [(a, a + k)]
  exact rangesGo_range' k a a

theorem consecutiveRanges_sym_gap (mask : List Bool) :
    List.Pairwise (fun r r' : Nat × Nat => r.2 + 1 < r'.1 ∨ r'.2 + 1 < r.1)
      (consecutiveRanges mask) :=
  (consecutiveRanges_gap mask).imp fun h => Or.inl h

/-- C1: on every finite boolean mask, `_consecutive_ranges` returns exactly
the maximal runs of consecutive `True` positions as inclusive index pairs:
each returned range is well-formed, in bounds, and covers only `True`
positions; each `True` position lies in exactly one returned range; distinct
returned ranges are neither adjacent nor overlapping; an isolated `True`
position yields a degenerate range; and an all-`False` (or empty) mask
yields no ranges. -/
theorem run_detector_maximal_runs (mask : List Bool) :
    (∀ r ∈ consecutiveRanges mask, r.1 ≤ r.2 ∧ r.2 < mask.length ∧
      ∀ j, r.1 ≤ j → j ≤ r.2 → mask.getD j false = true) ∧
    (∀ j, j < mask.length → mask.getD j false = true →
      ∃! r : Nat × Nat, r ∈ consecutiveRanges mask ∧ r.1 ≤ j ∧ j ≤ r.2) ∧
    List.Pairwise (fun r r' : Nat × Nat => r.2 + 1 < r'.1 ∨ r'.2 + 1 < r.1)
      (consecutiveRanges mask) ∧
    (∀ j, j < mask.length → mask.getD j false = true →
      mask.getD (j + 1) false = false → (j = 0 ∨ mask.getD (j - 1) false = false) →
      (j, j) ∈ consecutiveRanges mask) ∧
    ((∀ b ∈ mask, b = false) → consecutiveRanges mask = []) := by
  have hsym : Symmetric (fun r r' : Nat × Nat => r.2 + 1 < r'.1 ∨ r'.2 + 1 < r.1) :=
    fun x y h => h.elim Or.inr Or.inl
  refine ⟨?_, ?_, consecutiveRanges_sym_gap mask, ?_, ?_⟩
  · intro r hr
    have hle := consecutiveRanges_fst_le_snd mask r hr
    refine ⟨hle, ?_, ?_⟩
    · exact ((consecutiveRanges_cover mask r.2).mp ⟨r, hr, hle, le_refl _⟩).1
    · intro j hj1 hj2
      exact ((consecutiveRanges_cover mask j).mp ⟨r, hr, hj1, hj2⟩).2
  · intro j hjlen hjtrue
    obtain ⟨r, hr, hcov⟩ := (consecutiveRanges_cover mask j).mpr ⟨hjlen, hjtrue⟩
    refine ⟨r, ⟨hr, hcov⟩, ?_⟩
    rintro r' ⟨hr', hcov'⟩
    by_contra hne
    have := (consecutiveRanges_sym_gap mask).forall hsym hr' hr hne
    omega
  · intro j hjlen hjtrue hnext hprev
    obtain ⟨r, hr, hj1, hj2⟩ := (consecutiveRanges_cover mask j).mpr ⟨hjlen, hjtrue⟩
    have honly : ∀ m, r.1 ≤ m → m ≤ r.2 → mask.getD m false = true := by
      intro m hm1 hm2
      exact ((consecutiveRanges_cover mask m).mp ⟨r, hr, hm1, hm2⟩).2
    have h2 : r.2 = j := by
      by_contra hne
      have : mask.getD (j + 1) false = true := honly (j + 1) (by omega) (by omega)
      rw [hnext] at this
      exact absurd this (by simp)
    have h1 : r.1 = j := by
      rcases Nat.eq_zero_or_pos j with h0 | hpos
      · omega
      · by_contra hne
        have hmem : mask.getD (j - 1) false = true := honly (j - 1) (by omega) (by omega)
        rcases hprev with h | h
        · omega
        · rw [h] at hmem
          exact absurd hmem (by simp)
    have : r = (j, j) := by
      rcases r with ⟨x, y⟩
      simp only at h1 h2
      rw [h1, h2]
    rw [← this]
    exact hr
  · intro hfalse
    rw [List.eq_nil_iff_forall_not_mem]
    intro r hr
    have hle := consecutiveRanges_fst_le_snd mask r hr
    have hcov := (consecutiveRanges_cover mask r.2).mp ⟨r, hr, hle, le_refl _⟩
    have hmem : mask.getD r.2 false ∈ mask := by
      rw [List.getD_eq_getElem _ _ hcov.1]
      exact List.getElem_mem _
    have hf := hfalse _ hmem
    rw [hcov.2] at hf
    exact absurd hf (by simp)

/-- Witness for C1 at the concrete mask `[true, false, true, true]`: position
2 lies in exactly one returned range, and the isolated `True` at position 0
yields the degenerate range `(0, 0)`. -/
theorem run_detector_maximal_runs_witness :
    (∃! r : Nat × Nat, r ∈ consecutiveRanges [true, false, true, true] ∧
      r.1 ≤ 2 ∧ 2 ≤ r.2) ∧
    (0, 0) ∈ consecutiveRanges [true, false, true, true] :=
  ⟨(run_detector_maximal_runs [true, false, true, true]).2.1 2 (by decide) (by decide),
   (run_detector_maximal_runs [true, false, true, true]).2.2.2.1 0 (by decide) (by decide)
     (by decide) (Or.inl rfl)⟩

/-- C9: the run detector is idempotent — rebuilding a same-length boolean
mask from the returned ranges and running `_consecutive_ranges` on it again
returns the same ranges. -/
theorem find_runs_idempotent (mask : List Bool) :
    consecutiveRanges (maskOfRanges (consecutiveRanges mask) mask.length) =
      consecutiveRanges mask := by
  rw [maskOfRanges_reconstruct]

/-! ### Missing-variable error propagation -/

theorem error_bind {ε α β : Type} (e : ε) (f : α → Except ε β) :
    (Except.error e >>= f : Except ε β) = Except.error e := rfl

theorem ok_bind {ε α β : Type} (a : α) (f : α → Except ε β) :
    (Except.ok a >>= f : Except ε β) = f a := rfl

theorem pure_eq_ok {ε α : Type} (a : α) : (pure a : Except ε α) = Except.ok a := rfl

/-- C8: every analysis entry point fails with the `MissingVariable` error
(`KeyError(var)`) when the requested variable is not a column of the frame,
for every input series and every parameter choice. -/
theorem missing_variable_everywhere (df : DataFrame) (var : String)
    (h : df.cols.lookup var = none) :
    get_monthly_records df var = .error (.missingVariable var) ∧
    (∀ w : ℤ, rolling_mean df var w = .error (.missingVariable var)) ∧
    (∀ pcap, estimate_trend df var pcap = .error (.missingVariable var)) ∧
    (∀ p : ℚ, ∀ m : Nat, detect_heatwaves df var p m = .error (.missingVariable var)) ∧
    (∀ p : ℚ, ∀ m : Nat, detect_cold_spells df var p m = .error (.missingVariable var)) ∧
    (∀ sm : Nat × Nat, ∀ p : ℚ, detect_droughts df var sm p = .error (.missingVariable var)) := by
  have hg : getCol df var = .error (.missingVariable var) := by
    simp [getCol, h]
  refine ⟨?_, fun w => ?_, fun pcap => ?_, fun p m => ?_, fun p m => ?_, fun sm p => ?_⟩
  · simp [get_monthly_records, hg, error_bind]
  · simp [rolling_mean, hg, error_bind]
  · simp [estimate_trend, hg, error_bind]
  · simp [detect_heatwaves, hg, error_bind]
  · simp [detect_cold_spells, hg, error_bind]
  · simp [detect_droughts, hg, error_bind]

/-- Witness for C8 on a concrete one-column frame queried with the spec's
`NONEXISTENT` variable name. -/
theorem missing_variable_everywhere_witness :
    get_monthly_records ⟨[⟨2000, 1, 1⟩], [("T", [some 1])]⟩ "NONEXISTENT" =
      .error (.missingVariable "NONEXISTENT") ∧
    rolling_mean ⟨[⟨2000, 1, 1⟩], [("T", [some 1])]⟩ "NONEXISTENT" 30 =
      .error (.missingVariable "NONEXISTENT") :=
  ⟨(missing_variable_everywhere ⟨[⟨2000, 1, 1⟩], [("T", [some 1])]⟩ "NONEXISTENT"
      (by decide)).1,
   (missing_variable_everywhere ⟨[⟨2000, 1, 1⟩], [("T", [some 1])]⟩ "NONEXISTENT"
      (by decide)).2.1 30⟩

/-! ### Rolling mean -/

/-- C2 (counterexample): on a series whose column is all-missing,
`rolling_mean` with the non-positive `window_days = 0` returns the empty
series successfully instead of failing — the code contains no
`window_days` validation at all. -/
theorem rolling_mean_window_zero_counterexample :
    rolling_mean ⟨[⟨2000, 1, 1⟩, ⟨2000, 1, 2⟩], [("T", [none, none])]⟩ "T" 0 =
      .ok [] := rfl

/-- C2 (amended): `rolling_mean` performs no up-front validation of
`window_days`: a series that is empty after dropping missing values yields
an empty output with no error for every `window_days`, including
non-positive ones; and for `window_days ≥ 1` the call never fails once the
variable exists. -/
theorem rolling_mean_no_window_validation (df : DataFrame) (var : String)
    (col : List Value) (hcol : getCol df var = .ok col) :
    (∀ w : ℤ, dropna (df.index.zip col) = [] → rolling_mean df var w = .ok []) ∧
    (∀ w : ℤ, 1 ≤ w → ∃ out, rolling_mean df var w = .ok out) := by
  constructor
  · intro w hempty
    simp [rolling_mean, hcol, ok_bind, hempty, pure_eq_ok]
  · intro w _
    by_cases hemp : dropna (df.index.zip col) = []
    · exact ⟨[], by simp [rolling_mean, hcol, ok_bind, hemp, pure_eq_ok]⟩
    · refine ⟨(dropna (df.index.zip col)).map fun e =>
        (e.1, meanOpt (trailingWindow (dropna (df.index.zip col)) e.1 w)), ?_⟩
      simp only [rolling_mean, hcol, ok_bind]
      rw [if_neg (by simpa [List.isEmpty_iff] using hemp)]
      rfl

/-- Witness for C2 (amended) on a concrete all-missing column: window 0
returns the empty series, window 5 succeeds. -/
theorem rolling_mean_no_window_validation_witness :
    rolling_mean ⟨[⟨2000, 1, 1⟩, ⟨2000, 1, 2⟩], [("T", [none, none])]⟩ "T" 0 = .ok [] ∧
    ∃ out, rolling_mean ⟨[⟨2000, 1, 1⟩, ⟨2000, 1, 2⟩], [("T", [none, none])]⟩ "T" 5 =
      .ok out :=
  ⟨(rolling_mean_no_window_validation ⟨[⟨2000, 1, 1⟩, ⟨2000, 1, 2⟩], [("T", [none, none])]⟩
      "T" [none, none] rfl).1 0 rfl,
   (rolling_mean_no_window_validation ⟨[⟨2000, 1, 1⟩, ⟨2000, 1, 2⟩], [("T", [none, none])]⟩
      "T" [none, none] rfl).2 5 (by decide)⟩

/-- C5: for `window_days ≥ 1`, `rolling_mean` returns one point per element
of the missing-dropped input, aligned to the same timestamps, each value
being the (never-null) arithmetic mean of the values whose timestamps lie in
the trailing time window `(t − window_days, t]` — a time-based window, not a
fixed sample count. -/
theorem rolling_mean_trailing_window (df : DataFrame) (var : String)
    (col : List Value) (w : ℤ) (s : List (Date × ℚ)) (hw : 1 ≤ w)
    (hcol : getCol df var = .ok col) (hs : s = dropna (df.index.zip col)) :
    ∃ out, rolling_mean df var w = .ok out ∧
      out.length = s.length ∧
      ∀ k, k < s.length →
        (out.getD k (default, none)).1 = (s.getD k (default, 0)).1 ∧
        (out.getD k (default, none)).2 =
          some ((trailingWindow s (s.getD k (default, 0)).1 w).sum /
            ((trailingWindow s (s.getD k (default, 0)).1 w).length : ℚ)) := by
  subst hs
  by_cases hemp : dropna (df.index.zip col) = []
  · refine ⟨[], by simp [rolling_mean, hcol, ok_bind, hemp, pure_eq_ok], ?_, ?_⟩
    · simp [hemp]
    · intro k hk
      rw [hemp] at hk
      exact absurd hk (by simp)
  · refine ⟨(dropna (df.index.zip col)).map fun e =>
      (e.1, meanOpt (trailingWindow (dropna (df.index.zip col)) e.1 w)), ?_, ?_, ?_⟩
    · simp only [rolling_mean, hcol, ok_bind]
      rw [if_neg (by simpa [List.isEmpty_iff] using hemp)]
      rfl
    · exact List.length_map _ _
    · intro k hk
      have hk' : k < ((dropna (df.index.zip col)).map fun e =>
          (e.1, meanOpt (trailingWindow (dropna (df.index.zip col)) e.1 w))).length := by
        simpa using hk
      rw [List.getD_eq_getElem _ _ hk', List.getD_eq_getElem _ _ hk, List.getElem_map]
      refine ⟨rfl, ?_⟩
      have hmem : (dropna (df.index.zip col))[k] ∈ dropna (df.index.zip col) :=
        List.getElem_mem _
      have hin : ((dropna (df.index.zip col))[k]).2 ∈
          trailingWindow (dropna (df.index.zip col))
            ((dropna (df.index.zip col))[k]).1 w := by
        unfold trailingWindow
        refine List.mem_map_of_mem _ (List.mem_filter.mpr ⟨hmem, ?_⟩)
        simp only [Bool.and_eq_true, decide_eq_true_eq]
        omega
      have hne : trailingWindow (dropna (df.index.zip col))
          ((dropna (df.index.zip col))[k]).1 w ≠ [] :=
        List.ne_nil_of_mem hin
      unfold meanOpt
      rw [if_neg (by simpa [List.isEmpty_iff] using hne)]

/-- A concrete gapped three-day frame (one missing value, one calendar gap)
used to witness the rolling-mean claim. -/
def gappedFrame : DataFrame :=
  ⟨[⟨2000, 1, 1⟩, ⟨2000, 1, 2⟩, ⟨2000, 1, 4⟩], [("T", [some 1, none, some 5])]⟩

/-- The missing-dropped series of `gappedFrame`'s only column. -/
def gappedSeries : List (Date × ℚ) :=
  dropna (gappedFrame.index.zip [some 1, none, some 5])

/-- Witness for C5 on `gappedFrame` with window 2. -/
theorem rolling_mean_trailing_window_witness :
    ∃ out, rolling_mean gappedFrame "T" 2 = .ok out ∧
      out.length = gappedSeries.length ∧
      ∀ k, k < gappedSeries.length →
        (out.getD k (default, none)).1 = (gappedSeries.getD k (default, 0)).1 ∧
        (out.getD k (default, none)).2 =
          some ((trailingWindow gappedSeries (gappedSeries.getD k (default, 0)).1 2).sum /
            ((trailingWindow gappedSeries
              (gappedSeries.getD k (default, 0)).1 2).length : ℚ)) :=
  rolling_mean_trailing_window gappedFrame "T" [some 1, none, some 5] 2 gappedSeries
    (by decide) rfl rfl

/-! ### Event detectors -/

theorem mask_map_getD_none (col : List Value) (f : Value → Bool) (hf : f none = false)
    (j : Nat) (hj : j < col.length) (h : col.getD j none = none) :
    (col.map f).getD j false = false := by
  rw [List.getD_eq_getElem _ _ (by simpa using hj), List.getElem_map]
  rw [List.getD_eq_getElem _ _ hj] at h
  rw [h, hf]

theorem mask_map_getD_true (col : List Value) (f : Value → Bool) (hf : f none = false)
    (j : Nat) (h : (col.map f).getD j false = true) :
    j < col.length ∧ (col.getD j none).isSome = true := by
  rcases Nat.lt_or_ge j col.length with hj | hj
  · refine ⟨hj, ?_⟩
    rw [List.getD_eq_getElem _ _ (by simpa using hj), List.getElem_map] at h
    rw [List.getD_eq_getElem _ _ hj]
    cases hc : col[j] with
    | none => rw [hc, hf] at h; exact absurd h (by simp)
    | some x => simp
  · rw [List.getD_eq_default _ _ (by simpa using hj)] at h
    exact absurd h (by simp)

theorem heatMask_none_false : ∀ t : ℚ,
    (fun v : Value => match v with
      | none => false
      | some x => decide (t < x)) none = false := fun _ => rfl

theorem coldMask_none_false : ∀ t : ℚ,
    (fun v : Value => match v with
      | none => false
      | some x => decide (x < t)) none = false := fun _ => rfl

theorem heatMask_getD_true (col : List Value) (t : ℚ) (j : Nat)
    (h : (heatMask col t).getD j false = true) :
    j < col.length ∧ (col.getD j none).isSome = true :=
  mask_map_getD_true col (fun v => match v with
    | none => false
    | some x => decide (t < x)) (heatMask_none_false t) j h

theorem coldMask_getD_true (col : List Value) (t : ℚ) (j : Nat)
    (h : (coldMask col t).getD j false = true) :
    j < col.length ∧ (col.getD j none).isSome = true :=
  mask_map_getD_true col (fun v => match v with
    | none => false
    | some x => decide (x < t)) (coldMask_none_false t) j h

/-- C10: in `detect_heatwaves` and `detect_cold_spells`, a missing value
compares false against the threshold in both directions, so missing
positions are never marked, every returned date range comes from an index
range whose positions all carry non-missing values, and no candidate run
ever contains a missing position (runs are split at missing days, not
bridged). -/
theorem heatwave_coldspell_skip_missing (df : DataFrame) (var : String)
    (col : List Value) (p : ℚ) (m : Nat)
    (hcol : getCol df var = .ok col) :
    (∀ thresh : ℚ, ∀ j, j < col.length → col.getD j none = none →
      (heatMask col thresh).getD j false = false ∧
      (coldMask col thresh).getD j false = false) ∧
    (∀ res, detect_heatwaves df var p m = .ok res → ∀ dr ∈ res,
      ∃ a b : Nat, a ≤ b ∧ b < col.length ∧
        dr = (df.index.getD a default, df.index.getD b default) ∧
        ∀ j, a ≤ j → j ≤ b → (col.getD j none).isSome = true) ∧
    (∀ res, detect_cold_spells df var p m = .ok res → ∀ dr ∈ res,
      ∃ a b : Nat, a ≤ b ∧ b < col.length ∧
        dr = (df.index.getD a default, df.index.getD b default) ∧
        ∀ j, a ≤ j → j ≤ b → (col.getD j none).isSome = true) ∧
    (∀ thresh : ℚ, ∀ j, j < col.length → col.getD j none = none →
      (¬∃ r ∈ consecutiveRanges (heatMask col thresh), r.1 ≤ j ∧ j ≤ r.2) ∧
      (¬∃ r ∈ consecutiveRanges (coldMask col thresh), r.1 ≤ j ∧ j ≤ r.2)) := by
  have hmaskH : ∀ thresh : ℚ, ∀ j, j < col.length → col.getD j none = none →
      (heatMask col thresh).getD j false = false := fun thresh j hj h =>
    mask_map_getD_none col _ (heatMask_none_false thresh) j hj h
  have hmaskC : ∀ thresh : ℚ, ∀ j, j < col.length → col.getD j none = none →
      (coldMask col thresh).getD j false = false := fun thresh j hj h =>
    mask_map_getD_none col _ (coldMask_none_false thresh) j hj h
  refine ⟨fun thresh j hj h => ⟨hmaskH thresh j hj h, hmaskC thresh j hj h⟩,
    ?_, ?_, ?_⟩
  · intro res hres dr hdr
    simp only [detect_heatwaves, hcol, ok_bind, pure_eq_ok, Except.ok.injEq] at hres
    subst hres
    obtain ⟨r, hrf, rfl⟩ := List.mem_map.mp hdr
    have hrr := (List.mem_filter.mp hrf).1
    refine ⟨r.1, r.2, consecutiveRanges_fst_le_snd _ r hrr, ?_, rfl, ?_⟩
    · have := (consecutiveRanges_cover _ r.2).mp
        ⟨r, hrr, consecutiveRanges_fst_le_snd _ r hrr, le_refl _⟩
      simpa [heatMask] using this.1
    · intro j hj1 hj2
      have := (consecutiveRanges_cover _ j).mp ⟨r, hrr, hj1, hj2⟩
      exact (heatMask_getD_true col _ j this.2).2
  · intro res hres dr hdr
    simp only [detect_cold_spells, hcol, ok_bind, pure_eq_ok, Except.ok.injEq] at hres
    subst hres
    obtain ⟨r, hrf, rfl⟩ := List.mem_map.mp hdr
    have hrr := (List.mem_filter.mp hrf).1
    refine ⟨r.1, r.2, consecutiveRanges_fst_le_snd _ r hrr, ?_, rfl, ?_⟩
    · have := (consecutiveRanges_cover _ r.2).mp
        ⟨r, hrr, consecutiveRanges_fst_le_snd _ r hrr, le_refl _⟩
      simpa [coldMask] using this.1
    · intro j hj1 hj2
      have := (consecutiveRanges_cover _ j).mp ⟨r, hrr, hj1, hj2⟩
      exact (coldMask_getD_true col _ j this.2).2
  · intro thresh j hj h
    constructor
    · rintro ⟨r, hr, hj1, hj2⟩
      have := (consecutiveRanges_cover _ j).mp ⟨r, hr, hj1, hj2⟩
      rw [hmaskH thresh j hj h] at this
      exact absurd this.2 (by simp)
    · rintro ⟨r, hr, hj1, hj2⟩
      have := (consecutiveRanges_cover _ j).mp ⟨r, hr, hj1, hj2⟩
      rw [hmaskC thresh j hj h] at this
      exact absurd this.2 (by simp)

/-- Witness for C10 on a concrete column with a missing middle value: the
missing position is marked by neither mask. -/
theorem heatwave_coldspell_skip_missing_witness :
    (heatMask [some 1, none, some 2] 0).getD 1 false = false ∧
    (coldMask [some 1, none, some 2] 0).getD 1 false = false :=
  (heatwave_coldspell_skip_missing
    ⟨[⟨2000, 1, 1⟩, ⟨2000, 1, 2⟩, ⟨2000, 1, 3⟩], [("TMAX", [some 1, none, some 2])]⟩
    "TMAX" [some 1, none, some 2] 90 3 rfl).1 0 1 (by decide) (by decide)

/-- C3: when the strict threshold mask of `detect_heatwaves` marks exactly
one contiguous block of positions, of length at least `min_duration`, the
function returns exactly one date range — the calendar dates of the block's
first and last positions.  (The synthetic 3-year scenario of the spec is
the instance where the block is the injected 5-day stretch above the 99th
percentile.) -/
theorem detect_heatwaves_single_block (df : DataFrame) (var : String)
    (percentile : ℚ) (min_duration : Nat) (col : List Value) (a ℓ : Nat)
    (hcol : getCol df var = .ok col) (hℓ : 1 ≤ ℓ) (hmin : min_duration ≤ ℓ)
    (hblock : trueIndices (heatMask col (nanpercentile
        ((dropna (df.index.zip col)).map Prod.snd) percentile)) = List.range' a ℓ) :
    detect_heatwaves df var percentile min_duration =
      .ok [(df.index.getD a default, df.index.getD (a + ℓ - 1) default)] := by
  have hcr := consecutiveRanges_block _ a ℓ hblock hℓ
  simp only [detect_heatwaves, hcol, ok_bind]
  rw [hcr]
  have he : (a + ℓ - 1) - a + 1 = ℓ := by omega
  simp [he, hmin, pure_eq_ok]

/-- A 30-day frame whose TMAX column has a single 3-day block (positions
9–11) far above the rest, used to witness the heatwave claim. -/
def heatFrame : DataFrame :=
  ⟨(List.range 30).map fun i => (⟨2000, 1, i + 1⟩ : Date),
   [("TMAX", (List.range 30).map fun i =>
      if 9 ≤ i ∧ i ≤ 11 then some (50 : ℚ) else some 1)]⟩

/-- Witness for C3: on `heatFrame`, `detect_heatwaves` at the 90th
percentile with minimum duration 3 returns exactly the injected block's
date range. -/
theorem detect_heatwaves_single_block_witness :
    detect_heatwaves heatFrame "TMAX" 90 3 =
      .ok [((⟨2000, 1, 10⟩ : Date), (⟨2000, 1, 12⟩ : Date))] :=
  detect_heatwaves_single_block heatFrame "TMAX" 90 3
    ((List.range 30).map fun i => if 9 ≤ i ∧ i ≤ 11 then some (50 : ℚ) else some 1)
    9 3 rfl (by decide) (by decide) (by with_unfolding_all decide)

/-! ### Record extraction -/

theorem idxmaxFirst_cons (x e : Date × ℚ) (t : List (Date × ℚ)) :
    idxmaxFirst x (e :: t) = idxmaxFirst (if x.2 < e.2 then e else x) t := rfl

theorem idxminFirst_cons (x e : Date × ℚ) (t : List (Date × ℚ)) :
    idxminFirst x (e :: t) = idxminFirst (if e.2 < x.2 then e else x) t := rfl

theorem idxmaxFirst_mem (x : Date × ℚ) (xs : List (Date × ℚ)) :
    idxmaxFirst x xs ∈ x :: xs := by
  induction xs generalizing x with
  | nil => simp [idxmaxFirst]
  | cons e t ih =>
    rw [idxmaxFirst_cons]
    by_cases hxe : x.2 < e.2
    · rw [if_pos hxe]
      rcases List.mem_cons.mp (ih e) with h1 | h1
      · rw [h1]; simp
      · simp [h1]
    · rw [if_neg hxe]
      rcases List.mem_cons.mp (ih x) with h1 | h1
      · rw [h1]; simp
      · simp [h1]

theorem idxminFirst_mem (x : Date × ℚ) (xs : List (Date × ℚ)) :
    idxminFirst x xs ∈ x :: xs := by
  induction xs generalizing x with
  | nil => simp [idxminFirst]
  | cons e t ih =>
    rw [idxminFirst_cons]
    by_cases hxe : e.2 < x.2
    · rw [if_pos hxe]
      rcases List.mem_cons.mp (ih e) with h1 | h1
      · rw [h1]; simp
      · simp [h1]
    · rw [if_neg hxe]
      rcases List.mem_cons.mp (ih x) with h1 | h1
      · rw [h1]; simp
      · simp [h1]

theorem idxmaxFirst_le (x : Date × ℚ) (xs : List (Date × ℚ)) :
    ∀ e ∈ x :: xs, e.2 ≤ (idxmaxFirst x xs).2 := by
  induction xs generalizing x with
  | nil =>
    intro e he
    have : e = x := by simpa using he
    rw [this]
    exact le_refl _
  | cons f t ih =>
    intro e he
    rw [idxmaxFirst_cons]
    have hy : ∀ g ∈ (if x.2 < f.2 then f else x) :: t,
        g.2 ≤ (idxmaxFirst (if x.2 < f.2 then f else x) t).2 := ih _
    have hxy : x.2 ≤ (if x.2 < f.2 then f else x).2 := by
      split
      · exact le_of_lt (by assumption)
      · exact le_refl _
    have hfy : f.2 ≤ (if x.2 < f.2 then f else x).2 := by
      split
      · exact le_refl _
      · exact le_of_not_lt (by assumption)
    have hyres := hy _ (List.mem_cons_self _ _)
    rcases List.mem_cons.mp he with h1 | h1
    · rw [h1]; exact le_trans hxy hyres
    · rcases List.mem_cons.mp h1 with h2 | h2
      · rw [h2]; exact le_trans hfy hyres
      · exact hy e (List.mem_cons_of_mem _ h2)

theorem idxminFirst_ge (x : Date × ℚ) (xs : List (Date × ℚ)) :
    ∀ e ∈ x :: xs, (idxminFirst x xs).2 ≤ e.2 := by
  induction xs generalizing x with
  | nil =>
    intro e he
    have : e = x := by simpa using he
    rw [this]
    exact le_refl _
  | cons f t ih =>
    intro e he
    rw [idxminFirst_cons]
    have hy : ∀ g ∈ (if f.2 < x.2 then f else x) :: t,
        (idxminFirst (if f.2 < x.2 then f else x) t).2 ≤ g.2 := ih _
    have hxy : (if f.2 < x.2 then f else x).2 ≤ x.2 := by
      split
      · exact le_of_lt (by assumption)
      · exact le_refl _
    have hfy : (if f.2 < x.2 then f else x).2 ≤ f.2 := by
      split
      · exact le_refl _
      · exact le_of_not_lt (by assumption)
    have hyres := hy _ (List.mem_cons_self _ _)
    rcases List.mem_cons.mp he with h1 | h1
    · rw [h1]; exact le_trans hyres hxy
    · rcases List.mem_cons.mp h1 with h2 | h2
      · rw [h2]; exact le_trans hyres hfy
      · exact hy e (List.mem_cons_of_mem _ h2)

theorem idxmaxFirst_eq_or_lt (x : Date × ℚ) (xs : List (Date × ℚ)) :
    idxmaxFirst x xs = x ∨ x.2 < (idxmaxFirst x xs).2 := by
  induction xs generalizing x with
  | nil => exact Or.inl rfl
  | cons f t ih =>
    rw [idxmaxFirst_cons]
    by_cases hxf : x.2 < f.2
    · rw [if_pos hxf]
      right
      exact lt_of_lt_of_le hxf (idxmaxFirst_le f t f (List.mem_cons_self _ _))
    · rw [if_neg hxf]
      exact ih x

theorem idxminFirst_eq_or_gt (x : Date × ℚ) (xs : List (Date × ℚ)) :
    idxminFirst x xs = x ∨ (idxminFirst x xs).2 < x.2 := by
  induction xs generalizing x with
  | nil => exact Or.inl rfl
  | cons f t ih =>
    rw [idxminFirst_cons]
    by_cases hxf : f.2 < x.2
    · rw [if_pos hxf]
      right
      exact lt_of_le_of_lt (idxminFirst_ge f t f (List.mem_cons_self _ _)) hxf
    · rw [if_neg hxf]
      exact ih x

theorem idxmaxFirst_first (x : Date × ℚ) (xs : List (Date × ℚ))
    (hpw : List.Pairwise (fun a b : Date × ℚ => a.1.toDays < b.1.toDays) (x :: xs)) :
    ∀ e ∈ x :: xs, e.2 = (idxmaxFirst x xs).2 →
      (idxmaxFirst x xs).1.toDays ≤ e.1.toDays := by
  induction xs generalizing x with
  | nil =>
    intro e he _
    have : e = x := by simpa using he
    rw [this]
    exact le_refl _
  | cons f t ih =>
    intro e he heq
    rw [idxmaxFirst_cons] at heq ⊢
    rw [List.pairwise_cons] at hpw
    obtain ⟨hx, hpw'⟩ := hpw
    by_cases hxf : x.2 < f.2
    · rw [if_pos hxf] at heq ⊢
      rcases List.mem_cons.mp he with h1 | h1
      · exfalso
        have hle := idxmaxFirst_le f t f (List.mem_cons_self _ _)
        rw [h1] at heq
        exact absurd (lt_of_lt_of_le hxf hle) (by rw [← heq]; exact lt_irrefl _)
      · exact ih f hpw' e h1 heq
    · rw [if_neg hxf] at heq ⊢
      have hpwxt : List.Pairwise
          (fun a b : Date × ℚ => a.1.toDays < b.1.toDays) (x :: t) := by
        rw [List.pairwise_cons]
        exact ⟨fun b hb => hx b (List.mem_cons_of_mem _ hb),
          List.Pairwise.of_cons hpw'⟩
      rcases List.mem_cons.mp he with h1 | h1
      · exact ih x hpwxt e (h1 ▸ List.mem_cons_self _ _) heq
      rcases List.mem_cons.mp h1 with h2 | h2
      · rcases idxmaxFirst_eq_or_lt x t with hres | hres
        · rw [hres, h2]
          exact le_of_lt (hx f (List.mem_cons_self _ _))
        · exfalso
          rw [← heq, h2] at hres
          exact absurd (lt_of_le_of_lt (le_of_not_lt hxf) hres) (lt_irrefl _)
      · exact ih x hpwxt e (List.mem_cons_of_mem _ h2) heq

theorem idxminFirst_first (x : Date × ℚ) (xs : List (Date × ℚ))
    (hpw : List.Pairwise (fun a b : Date × ℚ => a.1.toDays < b.1.toDays) (x :: xs)) :
    ∀ e ∈ x :: xs, e.2 = (idxminFirst x xs).2 →
      (idxminFirst x xs).1.toDays ≤ e.1.toDays := by
  induction xs generalizing x with
  | nil =>
    intro e he _
    have : e = x := by simpa using he
    rw [this]
    exact le_refl _
  | cons f t ih =>
    intro e he heq
    rw [idxminFirst_cons] at heq ⊢
    rw [List.pairwise_cons] at hpw
    obtain ⟨hx, hpw'⟩ := hpw
    by_cases hxf : f.2 < x.2
    · rw [if_pos hxf] at heq ⊢
      rcases List.mem_cons.mp he with h1 | h1
      · exfalso
        have hle := idxminFirst_ge f t f (List.mem_cons_self _ _)
        rw [h1] at heq
        exact absurd (lt_of_le_of_lt hle hxf) (by rw [← heq]; exact lt_irrefl _)
      · exact ih f hpw' e h1 heq
    · rw [if_neg hxf] at heq ⊢
      have hpwxt : List.Pairwise
          (fun a b : Date × ℚ => a.1.toDays < b.1.toDays) (x :: t) := by
        rw [List.pairwise_cons]
        exact ⟨fun b hb => hx b (List.mem_cons_of_mem _ hb),
          List.Pairwise.of_cons hpw'⟩
      rcases List.mem_cons.mp he with h1 | h1
      · exact ih x hpwxt e (h1 ▸ List.mem_cons_self _ _) heq
      rcases List.mem_cons.mp h1 with h2 | h2
      · rcases idxminFirst_eq_or_gt x t with hres | hres
        · rw [hres, h2]
          exact le_of_lt (hx f (List.mem_cons_self _ _))
        · exfalso
          rw [← heq, h2] at hres
          exact hxf hres
      · exact ih x hpwxt e (List.mem_cons_of_mem _ h2) heq

theorem mem_dropna (l : List (Date × Value)) (e : Date × ℚ) :
    e ∈ dropna l ↔ (e.1, some e.2) ∈ l := by
  unfold dropna
  rw [List.mem_filterMap]
  constructor
  · rintro ⟨a, ha, hfa⟩
    cases hav : a.2 with
    | none => rw [hav] at hfa; exact absurd hfa (by simp)
    | some q =>
      rw [hav] at hfa
      have h1 : (a.1, q) = e := by simpa using hfa
      have h2 : a = (e.1, some e.2) := by
        rcases a with ⟨d, v⟩
        simp only at hav
        rw [hav]
        rw [← h1]
      rw [← h2]
      exact ha
  · intro h
    exact ⟨(e.1, some e.2), h, by simp⟩

theorem pairwise_fst_zip {R : Date → Date → Prop} :
    ∀ (l : List Date) (l' : List Value), List.Pairwise R l →
      List.Pairwise (fun p q : Date × Value => R p.1 q.1) (l.zip l') := by
  intro l
  induction l with
  | nil => intro l' _; simp
  | cons x t ih =>
    intro l' hpw
    cases l' with
    | nil => simp
    | cons v vs =>
      rw [List.zip_cons_cons, List.pairwise_cons]
      rw [List.pairwise_cons] at hpw
      refine ⟨?_, ih vs hpw.2⟩
      rintro ⟨a, b⟩ hq
      exact hpw.1 a (List.of_mem_zip hq).1

theorem pairwise_dropna {R : Date → Date → Prop} (l : List (Date × Value))
    (h : List.Pairwise (fun p q : Date × Value => R p.1 q.1) l) :
    List.Pairwise (fun p q : Date × ℚ => R p.1 q.1) (dropna l) := by
  induction l with
  | nil => simp [dropna]
  | cons x t ih =>
    rw [List.pairwise_cons] at h
    show List.Pairwise _ (List.filterMap _ (x :: t))
    rw [List.filterMap_cons]
    cases hx : x.2 with
    | none => exact ih h.2
    | some q =>
      simp only [Option.map_some']
      rw [List.pairwise_cons]
      refine ⟨?_, ih h.2⟩
      intro b hb
      have hmem := (mem_dropna t b).mp hb
      exact h.1 (b.1, some b.2) hmem

/-- C6: on a sorted-index series with at least one non-missing value,
`get_monthly_records` returns a record with `min_value ≤ max_value`, both
dates present in the original index, the series holding exactly those values
at those dates, the values being the global extrema of the non-missing
values, and ties resolving to the earliest timestamp (stable
argmax/argmin). -/
theorem get_monthly_records_spec (df : DataFrame) (var : String)
    (col : List Value)
    (hcol : getCol df var = .ok col)
    (hsort : List.Pairwise (fun a b : Date => a.toDays < b.toDays) df.index)
    (hne : dropna (df.index.zip col) ≠ []) :
    ∃ rec, get_monthly_records df var = .ok (some rec) ∧
      rec.min_value ≤ rec.max_value ∧
      rec.max_date ∈ df.index ∧ rec.min_date ∈ df.index ∧
      (rec.max_date, some rec.max_value) ∈ df.index.zip col ∧
      (rec.min_date, some rec.min_value) ∈ df.index.zip col ∧
      (∀ e ∈ dropna (df.index.zip col), e.2 ≤ rec.max_value ∧ rec.min_value ≤ e.2) ∧
      (∀ e ∈ dropna (df.index.zip col), e.2 = rec.max_value →
        rec.max_date.toDays ≤ e.1.toDays) ∧
      (∀ e ∈ dropna (df.index.zip col), e.2 = rec.min_value →
        rec.min_date.toDays ≤ e.1.toDays) := by
  obtain ⟨x, xs, hd⟩ := List.exists_cons_of_ne_nil hne
  have hpw : List.Pairwise (fun a b : Date × ℚ => a.1.toDays < b.1.toDays) (x :: xs) := by
    rw [← hd]
    exact pairwise_dropna _ (pairwise_fst_zip _ _ hsort)
  have hmemd : ∀ e ∈ x :: xs, (e.1, some e.2) ∈ df.index.zip col := by
    intro e he
    rw [← hd] at he
    exact (mem_dropna _ e).mp he
  refine ⟨⟨(idxmaxFirst x xs).2, (idxmaxFirst x xs).1,
          (idxminFirst x xs).2, (idxminFirst x xs).1⟩, ?_, ?_, ?_, ?_, ?_, ?_, ?_, ?_, ?_⟩
  · simp only [get_monthly_records, hcol, ok_bind, hd, pure_eq_ok]
  · exact idxminFirst_ge x xs _ (idxmaxFirst_mem x xs)
  · exact (List.of_mem_zip (hmemd _ (idxmaxFirst_mem x xs))).1
  · exact (List.of_mem_zip (hmemd _ (idxminFirst_mem x xs))).1
  · exact hmemd _ (idxmaxFirst_mem x xs)
  · exact hmemd _ (idxminFirst_mem x xs)
  · intro e he
    rw [hd] at he
    exact ⟨idxmaxFirst_le x xs e he, idxminFirst_ge x xs e he⟩
  · intro e he heq
    rw [hd] at he
    exact idxmaxFirst_first x xs hpw e he heq
  · intro e he heq
    rw [hd] at he
    exact idxminFirst_first x xs hpw e he heq

/-- A three-day frame with a tie for the maximum and a missing middle value,
used to witness the record-extraction claim. -/
def recFrame : DataFrame :=
  ⟨[⟨2000, 1, 1⟩, ⟨2000, 1, 2⟩, ⟨2000, 1, 3⟩], [("T", [some 5, none, some 5])]⟩

/-- Witness for C6 on `recFrame`. -/
theorem get_monthly_records_spec_witness :
    ∃ rec, get_monthly_records recFrame "T" = .ok (some rec) ∧
      rec.min_value ≤ rec.max_value ∧ rec.max_date ∈ recFrame.index := by
  obtain ⟨rec, h1, h2, h3, _⟩ :=
    get_monthly_records_spec recFrame "T" [some 5, none, some 5] rfl
      (by decide) (by decide)
  exact ⟨rec, h1, h2, h3⟩

/-! ### Drought detection -/

theorem mem_zip_map {α β : Type} (f : α → β) :
    ∀ (l : List α) (p : α × β), p ∈ l.zip (l.map f) → p.2 = f p.1 := by
  intro l
  induction l with
  | nil => intro p hp; simp at hp
  | cons x t ih =>
    intro p hp
    rw [List.map_cons, List.zip_cons_cons] at hp
    rcases List.mem_cons.mp hp with h | h
    · rw [h]
    · exact ih p h

theorem yearsSorted_ne_nil (index : List Date) (h : index ≠ []) :
    ((index.map Date.y).dedup).insertionSort (· ≤ ·) ≠ [] := by
  obtain ⟨d, t, rfl⟩ := List.exists_cons_of_ne_nil h
  intro hnil
  have hmem : d.y ∈ (((d :: t).map Date.y).dedup).insertionSort (· ≤ ·) := by
    rw [List.mem_insertionSort, List.mem_dedup]
    exact List.mem_map_of_mem _ (List.mem_cons_self _ _)
  rw [hnil] at hmem
  exact absurd hmem (List.not_mem_nil _)

/-- C4: on a frame with a non-empty index, `detect_droughts` produces one
row per calendar year present in the index (ascending), sums each year's
seasonal precipitation with missing values contributing zero (not dropped),
takes the percentile cutoff across all years' totals, and flags a year as
drought exactly when its total is `≤` the cutoff — so a year exactly at the
cutoff is flagged.  (On an empty index the source crashes in
`set_index("year")`, modelled as the `missingVariable "year"` error, so the
claim's successful-return behaviour needs the non-empty index.) -/
theorem detect_droughts_spec (df : DataFrame) (prcp_var : String)
    (col : List Value) (sm : Nat × Nat) (p : ℚ)
    (hcol : getCol df prcp_var = .ok col) (hne : df.index ≠ []) :
    ∃ rows, detect_droughts df prcp_var sm p = .ok rows ∧
      rows.map SeasonRow.year = ((df.index.map Date.y).dedup).insertionSort (· ≤ ·) ∧
      rows.map SeasonRow.precip =
        (((df.index.map Date.y).dedup).insertionSort (· ≤ ·)).map
          (fun y => seasonTotal ((df.index.zip col).map fun e => (e.1, e.2.getD 0)) sm y) ∧
      ∀ row ∈ rows,
        row.precip = (((df.index.zip col).filter fun e =>
            decide ((seasonStart sm row.year).toDays ≤ e.1.toDays) &&
            decide (e.1.toDays ≤ (seasonStop sm row.year).toDays)).map
              fun e => e.2.getD 0).sum ∧
        row.cutoff = nanpercentile (rows.map SeasonRow.precip) p ∧
        (row.is_drought = true ↔ row.precip ≤ row.cutoff) ∧
        (row.precip = row.cutoff → row.is_drought = true) := by
  set zc := (df.index.zip col).map fun e => (e.1, e.2.getD 0) with hzc
  set yrs := ((df.index.map Date.y).dedup).insertionSort (· ≤ ·) with hyrs
  set tot := yrs.map fun y => seasonTotal zc sm y with htot
  set ctf := nanpercentile tot p with hctf
  set rows := (yrs.zip tot).map fun yt =>
    (⟨yt.1, seasonStart sm yt.1, seasonStop sm yt.1, yt.2,
      decide (yt.2 ≤ ctf), ctf⟩ : SeasonRow) with hrows
  have hlen : tot.length = yrs.length := by rw [htot]; exact List.length_map _ _
  have hyear : rows.map SeasonRow.year = yrs := by
    rw [hrows, List.map_map]
    exact List.map_fst_zip yrs tot (le_of_eq hlen.symm)
  have hprec : rows.map SeasonRow.precip = tot := by
    rw [hrows, List.map_map]
    exact List.map_snd_zip yrs tot (le_of_eq hlen)
  refine ⟨rows, ?_, hyear, hprec, ?_⟩
  · simp only [detect_droughts, hcol, ok_bind, pure_eq_ok]
    split
    next hbad =>
      exact absurd (by simpa [List.isEmpty_iff] using hbad)
        (yearsSorted_ne_nil df.index hne)
    next => rfl
  · intro row hrow
    rw [hrows] at hrow
    obtain ⟨yt, hyt, rfl⟩ := List.mem_map.mp hrow
    rw [htot] at hyt
    have hval : yt.2 = seasonTotal zc sm yt.1 := mem_zip_map _ yrs yt hyt
    refine ⟨?_, ?_, ?_, ?_⟩
    · show yt.2 = _
      rw [hval]
      unfold seasonTotal
      rw [hzc, List.filter_map, List.map_map]
      rfl
    · show ctf = _
      rw [hprec, hctf]
    · show decide (yt.2 ≤ ctf) = true ↔ yt.2 ≤ ctf
      exact decide_eq_true_iff
    · intro heqq
      show decide (yt.2 ≤ ctf) = true
      rw [decide_eq_true_iff]
      exact le_of_eq heqq

/-- On a frame that has the precipitation column but an empty index,
`detect_droughts` surfaces the `set_index("year")` `KeyError` instead of
returning a season table. -/
theorem detect_droughts_empty_frame :
    detect_droughts ⟨[], [("PRCP", [])]⟩ "PRCP" (4, 9) 20 =
      .error (.missingVariable "year") := rfl

/-- A five-year frame whose 2000 seasonal total (one missing value counted
as zero) sits exactly at the 20th-percentile cutoff of all yearly totals. -/
def droughtFrame : DataFrame :=
  ⟨[⟨2000, 6, 1⟩, ⟨2000, 6, 2⟩, ⟨2001, 6, 1⟩, ⟨2002, 6, 1⟩, ⟨2003, 6, 1⟩, ⟨2004, 6, 1⟩],
   [("PRCP", [some 10, none, some 10, some 20, some 30, some 40])]⟩

/-- Witness for C4 on `droughtFrame`: the flag is the inclusive comparison
with the cutoff, and the year sitting exactly at the cutoff is flagged. -/
theorem detect_droughts_spec_witness :
    ∃ rows, detect_droughts droughtFrame "PRCP" (4, 9) 20 = .ok rows ∧
      (∀ row ∈ rows, row.is_drought = true ↔ row.precip ≤ row.cutoff) ∧
      ∃ row ∈ rows, row.precip = row.cutoff ∧ row.is_drought = true := by
  obtain ⟨rows, h1, _, _, h4⟩ := detect_droughts_spec droughtFrame "PRCP"
    [some 10, none, some 10, some 20, some 30, some 40] (4, 9) 20 rfl (by decide)
  have hev : detect_droughts droughtFrame "PRCP" (4, 9) 20 =
      .ok [⟨2000, ⟨2000, 4, 1⟩, ⟨2000, 9, 30⟩, 10, true, 10⟩,
           ⟨2001, ⟨2001, 4, 1⟩, ⟨2001, 9, 30⟩, 10, true, 10⟩,
           ⟨2002, ⟨2002, 4, 1⟩, ⟨2002, 9, 30⟩, 20, false, 10⟩,
           ⟨2003, ⟨2003, 4, 1⟩, ⟨2003, 9, 30⟩, 30, false, 10⟩,
           ⟨2004, ⟨2004, 4, 1⟩, ⟨2004, 9, 30⟩, 40, false, 10⟩] := by
    with_unfolding_all rfl
  have hr : rows = [⟨2000, ⟨2000, 4, 1⟩, ⟨2000, 9, 30⟩, 10, true, 10⟩,
           ⟨2001, ⟨2001, 4, 1⟩, ⟨2001, 9, 30⟩, 10, true, 10⟩,
           ⟨2002, ⟨2002, 4, 1⟩, ⟨2002, 9, 30⟩, 20, false, 10⟩,
           ⟨2003, ⟨2003, 4, 1⟩, ⟨2003, 9, 30⟩, 30, false, 10⟩,
           ⟨2004, ⟨2004, 4, 1⟩, ⟨2004, 9, 30⟩, 40, false, 10⟩] := by
    have := h1.symm.trans hev
    exact Except.ok.inj this
  refine ⟨rows, h1, fun row hrow => (h4 row hrow).2.2.1, ?_⟩
  refine ⟨⟨2000, ⟨2000, 4, 1⟩, ⟨2000, 9, 30⟩, 10, true, 10⟩, ?_, rfl, rfl⟩
  rw [hr]
  exact List.mem_cons_self _ _

/-! ### Trend estimation -/

theorem length_filterMap_map_opt {α β γ : Type} (l : List α) (h : α → Option β)
    (g : α → β → γ) :
    (l.filterMap fun a => (h a).map (g a)).length = (l.filterMap h).length := by
  induction l with
  | nil => rfl
  | cons x t ih => cases hx : h x <;> simp [List.filterMap_cons, hx, ih]

/-- C7: when fewer than two resample buckets carry data (after dropping
missing values and dropping empty calendar buckets), `estimate_trend`
returns the all-absent pair `(none, none)` and raises no error, whatever
the optional significance capability is. -/
theorem estimate_trend_insufficient_buckets (df : DataFrame) (var : String)
    (col : List Value) (pcap : Option (List (ℚ × ℚ) → ℚ))
    (hcol : getCol df var = .ok col)
    (hfew : ((bucketYears (dropna (df.index.zip col))).filterMap
        fun y => bucketMean (dropna (df.index.zip col)) y).length < 2) :
    estimate_trend df var pcap = .ok (none, none) := by
  unfold estimate_trend
  rw [hcol]
  show (do
    let s := dropna (df.index.zip col)
    let buckets := (bucketYears s).map fun (y : Nat) => ((y : ℚ), bucketMean s y)
    if buckets.isEmpty || buckets.length < 2 then pure (none, none)
    else
      let valid := buckets.filterMap fun b => b.2.map fun v => (b.1, v)
      if valid.length < 2 then pure (none, none)
      else
        match pcap with
        | none => pure (some (olsSlope valid), none)
        | some f => pure (some (olsSlope valid), some (f valid)) :
      Except AnalysisError (Option ℚ × Option ℚ)) = .ok (none, none)
  simp only
  split
  · rfl
  · rw [List.filterMap_map]
    have hlen := length_filterMap_map_opt (bucketYears (dropna (df.index.zip col)))
      (fun y => bucketMean (dropna (df.index.zip col)) y)
      (fun (y : Nat) (v : ℚ) => ((y : ℚ), v))
    rw [if_pos]
    · rfl
    · exact lt_of_eq_of_lt hlen hfew

/-- Witness for C7 on a concrete two-day, single-year series (one data
bucket). -/
theorem estimate_trend_insufficient_buckets_witness :
    estimate_trend ⟨[⟨2000, 1, 1⟩, ⟨2000, 1, 2⟩], [("T", [some 1, some 2])]⟩ "T" none =
      .ok (none, none) :=
  estimate_trend_insufficient_buckets _ "T" [some 1, some 2] none rfl (by decide)

end WD
